import Mathlib

/-!
Verification of the build-time translation pipeline of an Astro-based blog.

The pipeline lives in `scripts/translate.mjs` (pre-build script),
`src/integrations/astro-translate.ts` (Astro build hook),
`src/utils/translate.ts` (translation helpers) and
`src/pages/api/translate.ts` (API route handler).

The JavaScript code is shallowly embedded below.  File-system reads and
writes are modelled by association lists from names to contents, the
network by explicit oracles describing the outcome of each HTTP request,
and JavaScript 32-bit bitwise arithmetic by integers truncated modulo
`2 ^ 32`.  Exceptions thrown by `fetch`/`response.json()` are modelled as
explicit outcome constructors, so that every embedded function is total
exactly when the original code never propagates an exception.
-/

namespace Blog

/-! ## JavaScript 32-bit arithmetic and the content hash

`hashContent` (identical in `scripts/translate.mjs` and all copies of
`src/utils/translate.ts`):

```js
function hashContent(content) {
    let hash = 0;
    for (let i = 0; i < content.length; i++) {
        const char = content.charCodeAt(i);
        hash = (hash << 5) - hash + char;
        hash = hash & hash;
    }
    return Math.abs(hash).toString(36);
}
```
-/

/-- Truncation of an integer to a signed 32-bit value, as JavaScript's
bitwise operators (`<<`, `&`) perform on their results. -/
def toInt32 (x : Int) : Int := (x + 2 ^ 31) % 2 ^ 32 - 2 ^ 31

/-- UTF-16 code units of one character, as `String.prototype.charCodeAt`
enumerates them (a supplementary-plane character yields a surrogate pair). -/
def utf16Units (c : Char) : List Nat :=
  if c.toNat < 65536 then [c.toNat]
  else [55296 + (c.toNat - 65536) / 1024, 56320 + (c.toNat - 65536) % 1024]

/-- UTF-16 code units of a string, the values `charCodeAt` iterates over. -/
def codeUnits (s : String) : List Nat := (s.toList.map utf16Units).flatten

/-- One iteration of the hash loop: `hash = (hash << 5) - hash + char`
followed by `hash = hash & hash` (32-bit truncation). -/
def hashStep (h : Int) (c : Nat) : Int := toInt32 (toInt32 (h * 32) - h + (c : Int))

/-- The 32-bit hash accumulated over the code units of the content. -/
def hashLoop (units : List Nat) : Int := units.foldl hashStep 0

/-- Digit character of `Number.prototype.toString(36)`: `0`-`9` then `a`-`z`. -/
def digit36 (d : Nat) : Char := if d < 10 then Char.ofNat (48 + d) else Char.ofNat (87 + d)

/-- Accumulator loop of base-36 rendering (most significant digit first).
The loop stops when the value reaches 0; the first argument is a fuel
bound on the number of iterations, kept structural so that the function
evaluates by kernel reduction.  Starting the fuel at the value itself is
always enough because the value strictly shrinks at every division. -/
def toBase36Go : Nat → Nat → List Char → List Char
  | 0, _, acc => acc
  | fuel + 1, n, acc => if n = 0 then acc else toBase36Go fuel (n / 36) (digit36 (n % 36) :: acc)

/-- Base-36 rendering of a natural number, as `Number.prototype.toString(36)`
renders a non-negative integer. -/
def toBase36 (n : Nat) : String :=
  if n = 0 then "0" else String.mk (toBase36Go n n [])

/-- Embedding of `hashContent`: hash the UTF-16 code units, take the
absolute value, render in base 36. -/
def hashContent (s : String) : String := toBase36 (hashLoop (codeUnits s)).natAbs

/-- Characters that can appear in a base-36 numeral: `0`-`9` and `a`-`z`. -/
def isBase36Char (c : Char) : Bool := ('0' ≤ c && c ≤ '9') || ('a' ≤ c && c ≤ 'z')

/-! ## The hash-extraction regex

Both `translateDirectory` implementations recover the cached hash with
`existing.match(/<!-- hash: (\w+) -->/)?.[1]`.  The scan below mirrors the
regex engine: try to match at each position from the left; at a position
the literal `<!-- hash: ` must match, then a maximal non-empty run of word
characters, then the literal ` -->` (a shorter, backtracked run would be
followed by a word character rather than a space, so the maximal run is
the only candidate). -/

/-- Characters matched by the regex class `\w`. -/
def isWordChar (c : Char) : Bool := c.isAlphanum || c == '_'

/-- The opening literal of the embedded hash comment. -/
def hashMarker : List Char := "<!-- hash: ".toList

/-- The closing literal of the embedded hash comment. -/
def hashClose : List Char := " -->".toList

/-- Tests whether a list of characters starts with the given pattern. -/
def startsWithL : List Char → List Char → Bool
  | _, [] => true
  | [], _ :: _ => false
  | c :: cs, p :: ps => c == p && startsWithL cs ps

/-- Tests whether a list of characters ends with the given pattern, the
semantics of `String.prototype.endsWith`. -/
def endsWithL (l pat : List Char) : Bool := startsWithL l.reverse pat.reverse

/-- Whitespace trimming from both ends, the semantics of
`String.prototype.trim`. -/
def trimL (cs : List Char) : List Char :=
  ((cs.dropWhile Char.isWhitespace).reverse.dropWhile Char.isWhitespace).reverse

/-- Splitting at every comma, the semantics of `str.split(",")` (an empty
string yields one empty group). -/
def splitOnComma : List Char → List (List Char)
  | [] => [[]]
  | c :: cs =>
    if c = ',' then [] :: splitOnComma cs
    else
      match splitOnComma cs with
      | [] => [[c]]
      | g :: gs => (c :: g) :: gs

/-- Attempt to match `<!-- hash: (\w+) -->` at the head of the list,
returning the captured group. -/
def matchHashAt (cs : List Char) : Option (List Char) :=
  if startsWithL cs hashMarker then
    if (cs.drop hashMarker.length).takeWhile isWordChar = [] then none
    else if startsWithL
        ((cs.drop hashMarker.length).drop
          ((cs.drop hashMarker.length).takeWhile isWordChar).length) hashClose then
      some ((cs.drop hashMarker.length).takeWhile isWordChar)
    else none
  else none

/-- Left-to-right scan for the first match of the hash regex. -/
def extractHashL : List Char → Option String
  | [] => none
  | c :: cs =>
    match matchHashAt (c :: cs) with
    | some run => some (String.mk run)
    | none => extractHashL cs

/-- First capture of `/<!-- hash: (\w+) -->/` in a string, `none` when the
regex does not match. -/
def extractHash (s : String) : Option String := extractHashL s.toList

/-- Scan used in correctness statements: does the list contain a position
at which the opening literal `<!-- hash: ` occurs? -/
def hasMarker : List Char → Bool
  | [] => false
  | c :: cs => startsWithL (c :: cs) hashMarker || hasMarker cs

/-- Skip test of both `translateDirectory` implementations: the existing
output file (if any) embeds a hash equal to the hash of the current source
content.  A missing output file or a file without the comment never skips
(in JavaScript, `undefined === contentHash` is false). -/
def shouldSkip (content : String) (existing : Option String) : Bool :=
  match existing with
  | none => false
  | some ex => extractHash ex == some (hashContent content)

/-! ## Key rotation

`scripts/translate.mjs`:

```js
class KeyManager {
    constructor(keys) { this.keys = keys; this.index = 0; }
    getNextKey() {
        const key = this.keys[this.index];
        this.index = (this.index + 1) % this.keys.length;
        return key;
    }
}
```

`src/utils/translate.ts` (DeepLX multi-key variant):

```js
let keyIndex = 0;
function getNextApiKey(apiKeyStr) {
    const keys = apiKeyStr.split(",").map(k => k.trim()).filter(k => k.length > 0);
    if (keys.length === 0) { return ""; }
    const key = keys[keyIndex % keys.length];
    keyIndex++;
    return key;
}
```
-/

/-- State of the round-robin `KeyManager` of `scripts/translate.mjs`. -/
structure KeyManager where
  keys : List String
  index : Nat
deriving DecidableEq

/-- One call of `KeyManager.getNextKey`: return the key at the current
index, then advance the index modulo the number of keys. -/
def KeyManager.getNextKey (s : KeyManager) : String × KeyManager :=
  (s.keys.getD s.index "", ⟨s.keys, (s.index + 1) % s.keys.length⟩)

/-- State of the key manager after `n` calls, starting from a freshly
constructed manager. -/
def kmAfter (keys : List String) : Nat → KeyManager
  | 0 => ⟨keys, 0⟩
  | n + 1 => ((kmAfter keys n).getNextKey).2

/-- Key returned by the `n`-th call (counting from 0) to `getNextKey`. -/
def nthKey (keys : List String) (n : Nat) : String := ((kmAfter keys n).getNextKey).1

/-- Key list parsed from the comma-separated environment string:
split on commas, trim, drop empties. -/
def parseKeys (apiKeyStr : String) : List String :=
  ((splitOnComma apiKeyStr.toList).map (fun g => String.mk (trimL g))).filter
    (fun k => k.length > 0)

/-- One call of `getNextApiKey` with the module-global counter passed
explicitly: an empty key list returns `""` without touching the counter,
otherwise the key at `keyIndex % keys.length` is returned and the counter
is incremented. -/
def getNextApiKey (apiKeyStr : String) (keyIndex : Nat) : String × Nat :=
  if (parseKeys apiKeyStr).length = 0 then ("", keyIndex)
  else ((parseKeys apiKeyStr).getD (keyIndex % (parseKeys apiKeyStr).length) "", keyIndex + 1)

/-- Value of the global `keyIndex` after `n` calls of `getNextApiKey`,
starting from its initial value 0. -/
def apiIndexAfter (apiKeyStr : String) : Nat → Nat
  | 0 => 0
  | n + 1 => (getNextApiKey apiKeyStr (apiIndexAfter apiKeyStr n)).2

/-- Key returned by the `n`-th call (counting from 0) to `getNextApiKey`. -/
def nthApiKey (apiKeyStr : String) (n : Nat) : String :=
  (getNextApiKey apiKeyStr (apiIndexAfter apiKeyStr n)).1

/-! ## translateText of scripts/translate.mjs

```js
async function translateText(text, keyManager, retries = 3) {
    if (!text || text.trim().length === 0) return text;
    for (let i = 0; i < retries; i++) {
        const apiKey = keyManager.getNextKey();
        try {
            const response = await fetch(url, ...);
            if (!response.ok) { ...; continue; }
            const data = await response.json();
            if (data.code !== 200) { ...; continue; }
            return data.data;
        } catch (error) { ... }
    }
    return null;
}
```

The network is an oracle mapping the attempt number to the outcome of the
request: the fetch (or the body parse) throws, or a response arrives with
an `ok` flag, a payload `code` and payload `data`.  A 500 ms delay is
inserted between failed attempts; timing is not modelled. -/

/-- Outcome of one `fetch` of a DeepLX endpoint. -/
inductive FetchResult where
  | thrown
  | resp (ok : Bool) (code : Int) (data : String)
deriving DecidableEq

/-- Value produced by one attempt: `some data` exactly when the response
arrived with `ok` status and payload code 200, `none` when the attempt
fails (HTTP error, payload code other than 200, or a thrown exception). -/
def attemptValue : FetchResult → Option String
  | .thrown => none
  | .resp ok code d => if ok && code == 200 then some d else none

/-- Result of `translateText`: the returned value (`none` models the
JavaScript `null`), the key-manager state left behind, and the number of
attempts that were made. -/
structure TTResult where
  result : Option String
  km : KeyManager
  attempts : Nat
deriving DecidableEq

/-- The retry loop of `translateText`: at attempt `i` with `fuel`
remaining iterations, take the next key from the rotation, consult the
oracle, return on success and retry on failure. -/
def translateTextGo (oracle : Nat → FetchResult) : Nat → Nat → KeyManager → TTResult
  | _, 0, km => ⟨none, km, 0⟩
  | i, fuel + 1, km =>
    match attemptValue (oracle i) with
    | some d => ⟨some d, (km.getNextKey).2, 1⟩
    | none =>
      ⟨(translateTextGo oracle (i + 1) fuel (km.getNextKey).2).result,
       (translateTextGo oracle (i + 1) fuel (km.getNextKey).2).km,
       (translateTextGo oracle (i + 1) fuel (km.getNextKey).2).attempts + 1⟩

/-- Embedding of `translateText` (the source default for `retries` is 3):
empty or whitespace-only input is returned unchanged without any attempt,
otherwise the retry loop runs. -/
def translateText (text : String) (km : KeyManager) (oracle : Nat → FetchResult)
    (retries : Nat) : TTResult :=
  if trimL text.toList = [] then ⟨some text, km, 0⟩ else translateTextGo oracle 0 retries km

/-! ## translateBatch of scripts/translate.mjs

```js
const CONCURRENCY = 5;
async function translateBatch(texts, keyManager) {
    const results = [];
    for (let i = 0; i < texts.length; i += CONCURRENCY) {
        const batch = texts.slice(i, i + CONCURRENCY);
        const batchPromises = batch.map(async (text, idx) => {
            if (!text.trim() || text.startsWith("```") || text.startsWith("    ")
                || text.startsWith("<")) {
                return { index: i + idx, result: text };
            }
            const translated = await translateText(text, keyManager);
            return { index: i + idx, result: translated || text };
        });
        const batchResults = await Promise.all(batchPromises);
        results.push(...batchResults);
        if (i + CONCURRENCY < texts.length) { await sleep(DELAY_MS); }
    }
    results.sort((a, b) => a.index - b.index);
    return results.map(r => r.result);
}
```

The effect of `await translateText(text, keyManager)` on the paragraph at
absolute position `i` is abstracted into an oracle
`tr : Nat → String → Option String` (`none` models `null` after all
retries failed); the shared key-manager state is consumed in an order
determined by response timing and does not influence which result lands at
which index.  The inter-batch delay is a timing effect and is not
modelled.  `Array.prototype.sort` with comparator `a.index - b.index` is
modelled by insertion sort on the index, which agrees with every
comparison sort here because all indices are distinct. -/

/-- Batch size of the parallel loop. -/
def CONCURRENCY : Nat := 5

/-- An `{ index, result }` record pushed by the batch loop. -/
structure IndexedResult where
  index : Nat
  result : String
deriving DecidableEq

/-- JavaScript `translated || text`: `null` and the empty string are
falsy, so they fall back to the original text. -/
def jsOrElse (o : Option String) (d : String) : String :=
  match o with
  | none => d
  | some s => if s = "" then d else s

/-- Paragraph skip test of the batch callback: blank, code fence, indented
code block, or raw HTML. -/
def skipPara (text : String) : Bool :=
  trimL text.toList == [] || startsWithL text.toList "```".toList
    || startsWithL text.toList "    ".toList || startsWithL text.toList "<".toList

/-- The batch callback for the paragraph at absolute index `i`. -/
def processOne (tr : Nat → String → Option String) (i : Nat) (text : String) : IndexedResult :=
  if skipPara text then ⟨i, text⟩ else ⟨i, jsOrElse (tr i text) text⟩

/-- The `batch.map((text, idx) => ...)` call: map with the index local to
the batch, starting at `idx`. -/
def mapWithIndex (f : Nat → String → IndexedResult) : List String → Nat → List IndexedResult
  | [], _ => []
  | t :: ts, idx => f idx t :: mapWithIndex f ts (idx + 1)

/-- The batch loop: slice off `CONCURRENCY` texts, process them with their
absolute indices, recurse on the rest. -/
def translateBatchGo (tr : Nat → String → Option String) :
    List String → Nat → List IndexedResult
  | [], _ => []
  | t :: ts, i =>
    mapWithIndex (fun idx text => processOne tr (i + idx) text) ((t :: ts).take CONCURRENCY) 0
      ++ translateBatchGo tr ((t :: ts).drop CONCURRENCY) (i + CONCURRENCY)
termination_by l _ => l.length
decreasing_by simp [CONCURRENCY, List.length_drop]; omega

/-- The consecutive slices `texts.slice(i, i + CONCURRENCY)` taken by the
batch loop. -/
def batches : List String → List (List String)
  | [] => []
  | t :: ts => (t :: ts).take CONCURRENCY :: batches ((t :: ts).drop CONCURRENCY)
termination_by l => l.length
decreasing_by simp [CONCURRENCY, List.length_drop]; omega

/-- Insertion into a list sorted by ascending `index`. -/
def insertByIndex (r : IndexedResult) : List IndexedResult → List IndexedResult
  | [] => [r]
  | x :: xs => if r.index ≤ x.index then r :: x :: xs else x :: insertByIndex r xs

/-- Sorting by ascending `index`, the effect of
`results.sort((a, b) => a.index - b.index)`. -/
def sortByIndex : List IndexedResult → List IndexedResult
  | [] => []
  | x :: xs => insertByIndex x (sortByIndex xs)

/-- Embedding of `translateBatch`: run the batch loop, sort by original
index, project the results. -/
def translateBatch (tr : Nat → String → Option String) (texts : List String) : List String :=
  (sortByIndex (translateBatchGo tr texts 0)).map (fun r => r.result)

/-- Straight-line processing of every text at consecutive absolute
indices; the specification the batch loop is compared against. -/
def procList (tr : Nat → String → Option String) : List String → Nat → List IndexedResult
  | [], _ => []
  | t :: ts, i => processOne tr i t :: procList tr ts (i + 1)

/-! ## translateDirectory of scripts/translate.mjs

The directory is modelled as a list of `(fileName, content)` pairs and the
output directory as an association list from file names to file contents
in which a write prepends a shadowing entry.  The script first collects
`filesToTranslate` (every markdown file whose skip check fails, where the
skip check reads the pre-existing output file), then processes them in
order; a file whose processing throws is logged and skipped.  The whole
processing of one collected file (frontmatter parsing, paragraph
translation, title/description translation, `matter.stringify`) is
abstracted into an oracle `tr : name → content → Option output`, `none`
modelling a thrown exception (in which case nothing is written). -/

/-- Test for the `.md` / `.mdx` filter of both directory walks. -/
def isMarkdownFile (f : String) : Bool :=
  endsWithL f.toList ".md".toList || endsWithL f.toList ".mdx".toList

/-- The `FILE_NAME_MAP` constant of `scripts/translate.mjs`. -/
def FILE_NAME_MAP : List (String × String) :=
  [("梦.md", "dream.md"), ("2025.07.29_梦.md", "2025.07.29_dream.md")]

/-- Embedding of `getOutputFileName`:
`FILE_NAME_MAP[inputFileName] || inputFileName`. -/
def getOutputFileName (inputFileName : String) : String :=
  (FILE_NAME_MAP.lookup inputFileName).getD inputFileName

/-- A write into the modelled output directory. -/
def fsWrite (fs : List (String × String)) (name text : String) : List (String × String) :=
  (name, text) :: fs

/-- Result of a `scripts/translate.mjs` directory run: the final output
directory and the names of the source files whose translation was
attempted (in order). -/
structure DirResult where
  fs : List (String × String)
  attempted : List String
deriving DecidableEq

/-- Processing of one collected file: on success write the produced output
under the mapped name, on a thrown exception leave the directory as is. -/
def dirStep (tr : String → String → Option String) (fs : List (String × String))
    (f : String × String) : List (String × String) :=
  match tr f.1 f.2 with
  | some out => fsWrite fs (getOutputFileName f.1) out
  | none => fs

namespace Mjs

/-- Embedding of `translateDirectory` of `scripts/translate.mjs`: filter
markdown files, collect the ones whose skip check against the existing
output fails, then translate and write them in order. -/
def translateDirectory (tr : String → String → Option String)
    (files : List (String × String)) (fs0 : List (String × String)) : DirResult :=
  ⟨(((files.filter (fun f => isMarkdownFile f.1)).filter
      (fun f => ! shouldSkip f.2 (List.lookup (getOutputFileName f.1) fs0))).foldl
      (dirStep tr) fs0),
   ((files.filter (fun f => isMarkdownFile f.1)).filter
      (fun f => ! shouldSkip f.2 (List.lookup (getOutputFileName f.1) fs0))).map
      (fun f => f.1)⟩

end Mjs

/-! ## translateDirectory of src/integrations/astro-translate.ts

```js
const translationCache = new Map();
...
const contentHash = hashContent(content);
if (translationCache.has(contentHash)) {
    await writeFile(outputPath, translationCache.get(contentHash));
    skipped++; continue;
}
try {
    const existingContent = await readFile(outputPath, "utf-8");
    const existingHash = existingContent.match(/<!-- hash: (\w+) -->/)?.[1];
    if (existingHash === contentHash) { skipped++; continue; }
} catch {}
const result = await translateMarkdown(markdownContent, { apiKey });
if (!result.success) { logger.error(...); continue; }
... const translatedContent = matter.stringify(`<!-- hash: ${contentHash} -->...`, ...);
await writeFile(outputPath, translatedContent);
translationCache.set(contentHash, translatedContent);
translated++;
```

The production of the complete output text from the source content
(frontmatter parsing, the `translateMarkdown` calls for body, title and
description, `matter.stringify`) is abstracted into
`produce : content → Option output`; `none` models `!result.success` for
the body, in which case the file is logged and skipped.  `apiCalls`
instruments which files caused at least one call of `translateMarkdown`. -/

/-- State threaded through the integration's directory walk. -/
structure IntState where
  cache : List (String × String)
  fs : List (String × String)
  translated : Nat
  skipped : Nat
  apiCalls : List String
deriving DecidableEq

/-- Processing of one markdown file by the integration. -/
def intStep (produce : String → Option String) (s : IntState) (f : String × String) : IntState :=
  match List.lookup (hashContent f.2) s.cache with
  | some cached =>
    { s with fs := fsWrite s.fs f.1 cached, skipped := s.skipped + 1 }
  | none =>
    if shouldSkip f.2 (List.lookup f.1 s.fs) then
      { s with skipped := s.skipped + 1 }
    else
      match produce f.2 with
      | none => { s with apiCalls := f.1 :: s.apiCalls }
      | some t =>
        { s with fs := fsWrite s.fs f.1 t,
                 cache := (hashContent f.2, t) :: s.cache,
                 translated := s.translated + 1,
                 apiCalls := f.1 :: s.apiCalls }

/-- The integration's walk over the markdown files of one content
directory. -/
def runDir (produce : String → Option String) (files : List (String × String))
    (s : IntState) : IntState :=
  (files.filter (fun f => isMarkdownFile f.1)).foldl (intStep produce) s

/-! ## The astro:build:start hook

```js
for (const dir of contentDirs) {
    try {
        const result = await translateDirectory(dir, apiKey, logger);
        totalTranslated += result.translated;
        totalSkipped += result.skipped;
    } catch (error) { logger.error(`Error translating ...`); }
}
```
-/

/-- Embedding of the hook's loop over the content directories: a
directory whose processing throws (`Except.error`) is logged and the loop
moves on; the counters accumulate over the successful directories. -/
def runHook (dirResult : String → Except String (Nat × Nat)) (dirs : List String) : Nat × Nat :=
  dirs.foldl
    (fun tot d =>
      match dirResult d with
      | .ok r => (tot.1 + r.1, tot.2 + r.2)
      | .error _ => tot) (0, 0)

/-! ## The POST /api/translate route handler

The request body is the result of `await request.json()` (which may
throw), the upstream DeepLX call is an oracle: the fetch throws, the
response is not ok, the response body fails to parse, or a JSON payload
with a `code`, an optional `message` and a `data` field arrives. -/

/-- Parsed request body of the route handler. -/
inductive ReqBody where
  | parseFails
  | parsed (text : Option String) (targetLang : Option String)
deriving DecidableEq

/-- Outcome of the upstream DeepLX request made by the route handler. -/
inductive UpstreamResult where
  | fetchThrows
  | notOk (status : Nat) (statusText : String)
  | jsonThrows
  | jsonOk (code : Int) (message : Option String) (data : String)
deriving DecidableEq

/-- Body of the handler's HTTP response. -/
inductive RespBody where
  | err (msg : String)
  | ok (translatedText : String)
deriving DecidableEq

/-- HTTP response returned by the handler. -/
structure ApiResp where
  status : Nat
  body : RespBody
deriving DecidableEq

/-- JavaScript `a || b` on an optional string (`undefined`, `null` and
`""` are falsy). -/
def jsOrStr (o : Option String) (d : String) : String :=
  match o with
  | none => d
  | some s => if s = "" then d else s

/-- Embedding of the `POST` handler of `src/pages/api/translate.ts`.  It
is a total function: every exception path of the original code is caught
by its outer `try`/`catch` and becomes the 500 response. -/
def POST (req : ReqBody) (upstream : UpstreamResult) : ApiResp :=
  match req with
  | .parseFails => ⟨500, .err "Internal server error"⟩
  | .parsed text _ =>
    if text = none ∨ text = some "" then ⟨400, .err "No text provided"⟩
    else
      match upstream with
      | .fetchThrows => ⟨500, .err "Internal server error"⟩
      | .notOk status statusText => ⟨status, .err ("DeepLX failed: " ++ statusText)⟩
      | .jsonThrows => ⟨500, .err "Internal server error"⟩
      | .jsonOk code message data =>
        if code ≠ 200 then ⟨500, .err (jsOrStr message "Translation failed")⟩
        else ⟨200, .ok data⟩

/-! ## translateFrontmatter of src/utils/translate.ts

```js
function translateFrontmatter(frontmatter, translatedTitle, translatedDescription) {
    return {
        ...frontmatter,
        title: translatedTitle || frontmatter.title,
        description: translatedDescription || frontmatter.description,
    };
}
```

A frontmatter record is modelled as a total map from keys to JavaScript
values (`undef` standing for an absent or `undefined` property). -/

/-- JavaScript values appearing in a frontmatter record. -/
inductive JsVal where
  | undef
  | str (s : String)
  | other (tag : Nat)
deriving DecidableEq

/-- JavaScript truthiness of a frontmatter value: `undefined` and the
empty string are falsy, everything else here is truthy. -/
def truthy : JsVal → Bool
  | .undef => false
  | .str s => s ≠ ""
  | .other _ => true

/-- JavaScript `a || b` on frontmatter values. -/
def jsOr (a b : JsVal) : JsVal := if truthy a then a else b

/-- Embedding of `translateFrontmatter`: spread the record, then override
`title` and `description` with the translated value when it is truthy. -/
def translateFrontmatter (frontmatter : String → JsVal) (translatedTitle : JsVal)
    (translatedDescription : JsVal) : String → JsVal :=
  fun k =>
    if k = "title" then jsOr translatedTitle (frontmatter "title")
    else if k = "description" then jsOr translatedDescription (frontmatter "description")
    else frontmatter k

/-! ## Helper lemmas: base-36 rendering and the content hash -/

lemma toBase36Go_pred (p : Char → Bool) (hp : ∀ d, d < 36 → p (digit36 d) = true) :
    ∀ (fuel n : Nat) (acc : List Char), (∀ c ∈ acc, p c = true) →
      ∀ c ∈ toBase36Go fuel n acc, p c = true := by
  intro fuel
  induction fuel with
  | zero => intro n acc hacc c hc; exact hacc c hc
  | succ fuel ih =>
    intro n acc hacc c hc
    rw [toBase36Go] at hc
    split at hc
    · exact hacc c hc
    · refine ih _ _ ?_ c hc
      intro c hc
      rcases List.mem_cons.mp hc with h' | h'
      · subst h'; exact hp _ (Nat.mod_lt _ (by omega))
      · exact hacc c h'

lemma toBase36Go_length_le :
    ∀ (fuel n : Nat) (acc : List Char), acc.length ≤ (toBase36Go fuel n acc).length := by
  intro fuel
  induction fuel with
  | zero => intro n acc; exact Nat.le_refl _
  | succ fuel ih =>
    intro n acc
    rw [toBase36Go]
    split
    · exact Nat.le_refl _
    · calc acc.length ≤ (digit36 (n % 36) :: acc).length := by simp
        _ ≤ _ := ih (n / 36) _

lemma toBase36_toList_ne_nil (n : Nat) : (toBase36 n).toList ≠ [] := by
  rw [toBase36]
  split
  · decide
  · next h =>
    show toBase36Go n n [] ≠ []
    cases n with
    | zero => exact absurd rfl h
    | succ m =>
      rw [toBase36Go, if_neg h]
      intro hcontra
      have hle := toBase36Go_length_le m ((m + 1) / 36) [digit36 ((m + 1) % 36)]
      rw [hcontra] at hle
      simp at hle

lemma toBase36_pred (p : Char → Bool) (hp : ∀ d, d < 36 → p (digit36 d) = true)
    (hp0 : p '0' = true) (n : Nat) : ∀ c ∈ (toBase36 n).toList, p c = true := by
  rw [toBase36]
  split
  · intro c hc
    have : c = '0' := by
      have h0 : ("0" : String).toList = ['0'] := by decide
      rw [h0] at hc
      simpa using hc
    rw [this]; exact hp0
  · intro c hc
    exact toBase36Go_pred p hp n n [] (by simp) c hc

lemma hashContent_ne_empty (s : String) : hashContent s ≠ "" := by
  rw [hashContent]
  intro h
  exact toBase36_toList_ne_nil _ (by rw [h]; decide)

lemma hashContent_base36 (s : String) : ∀ c ∈ (hashContent s).toList, isBase36Char c = true :=
  toBase36_pred isBase36Char (by decide) (by decide) _

lemma hashContent_word (s : String) : ∀ c ∈ (hashContent s).toList, isWordChar c = true :=
  toBase36_pred isWordChar (by decide) (by decide) _

/-! ## Helper lemmas: the hash-extraction scan -/

lemma startsWithL_append (pat rest : List Char) : startsWithL (pat ++ rest) pat = true := by
  induction pat with
  | nil => cases rest <;> rfl
  | cons p ps ih => simp [startsWithL, ih]

lemma startsWithL_iff_take (l pat : List Char) :
    startsWithL l pat = true ↔ l.take pat.length = pat := by
  induction pat generalizing l with
  | nil => simp [startsWithL]
  | cons p ps ih =>
    cases l with
    | nil => simp [startsWithL]
    | cons c cs => simp [startsWithL, ih, List.take, and_comm]

lemma hashMarker_no_overlap :
    ∀ k, k < hashMarker.length → 0 < k →
      hashMarker.drop k ≠ hashMarker.take (hashMarker.length - k) := by decide

lemma matchHashAt_none_of_no_marker (pre rest : List Char) (hne : pre ≠ [])
    (hpre : hasMarker pre = false) (hrest : startsWithL rest hashMarker = true) :
    matchHashAt (pre ++ rest) = none := by
  have hsw : startsWithL (pre ++ rest) hashMarker = false := by
    by_contra hcon
    have hsw : startsWithL (pre ++ rest) hashMarker = true := by
      cases h : startsWithL (pre ++ rest) hashMarker
      · exact absurd h hcon
      · rfl
    have htake : (pre ++ rest).take hashMarker.length = hashMarker :=
      (startsWithL_iff_take _ _).mp hsw
    by_cases hlen : hashMarker.length ≤ pre.length
    · have : pre.take hashMarker.length = hashMarker := by
        rw [List.take_append_eq_append_take] at htake
        rw [Nat.sub_eq_zero_of_le hlen] at htake
        simpa using htake
      have : startsWithL pre hashMarker = true := (startsWithL_iff_take _ _).mpr this
      cases pre with
      | nil => exact hne rfl
      | cons c cs =>
        rw [hasMarker] at hpre
        simp [this] at hpre
    · have hklt : pre.length < hashMarker.length := by omega
      have hsplit : hashMarker = pre ++ hashMarker.take (hashMarker.length - pre.length) := by
        rw [List.take_append_eq_append_take] at htake
        rw [List.take_of_length_le (by omega)] at htake
        have hresttake : rest.take (hashMarker.length - pre.length)
            = hashMarker.take (hashMarker.length - pre.length) := by
          have h11 : rest.take hashMarker.length = hashMarker :=
            (startsWithL_iff_take _ _).mp hrest
          have hmin : (hashMarker.length - pre.length) ⊓ hashMarker.length
              = hashMarker.length - pre.length := Nat.min_eq_left (by omega)
          calc rest.take (hashMarker.length - pre.length)
              = (rest.take hashMarker.length).take (hashMarker.length - pre.length) := by
                rw [List.take_take, hmin]
            _ = hashMarker.take (hashMarker.length - pre.length) := by rw [h11]
        rw [hresttake] at htake
        exact htake.symm
      have htakepre : hashMarker.take pre.length = pre := by
        conv_lhs => rw [hsplit]
        exact List.take_left _ _
      have hdroppre : hashMarker.drop pre.length
          = hashMarker.take (hashMarker.length - pre.length) := by
        conv_lhs => rw [hsplit]
        exact List.drop_left _ _
      have hprepos : 0 < pre.length := by
        cases pre with
        | nil => exact absurd rfl hne
        | cons c cs => simp
      exact hashMarker_no_overlap pre.length hklt hprepos hdroppre
  rw [matchHashAt, if_neg (by simp [hsw])]

lemma extractHashL_skip_head :
    ∀ (pre rest : List Char), hasMarker pre = false →
      startsWithL rest hashMarker = true →
      extractHashL (pre ++ rest) = extractHashL rest
  | [], _, _, _ => rfl
  | c :: pre, rest, hpre, hrest => by
    have hnone : matchHashAt ((c :: pre) ++ rest) = none :=
      matchHashAt_none_of_no_marker (c :: pre) rest (by simp) hpre hrest
    have hpre' : hasMarker pre = false := by
      rw [hasMarker] at hpre
      exact (Bool.or_eq_false_iff.mp hpre).2
    calc extractHashL ((c :: pre) ++ rest)
        = extractHashL (pre ++ rest) := by
          rw [show (c :: pre) ++ rest = c :: (pre ++ rest) from rfl, extractHashL]
          rw [show c :: (pre ++ rest) = (c :: pre) ++ rest from rfl, hnone]
      _ = extractHashL rest := extractHashL_skip_head pre rest hpre' hrest

lemma takeWhile_append_stop (p : Char → Bool) :
    ∀ (A : List Char) (b : Char) (B : List Char), (∀ c ∈ A, p c = true) → p b = false →
      (A ++ b :: B).takeWhile p = A := by
  intro A
  induction A with
  | nil => intro b B _ hb; simp [List.takeWhile_cons, hb]
  | cons a A ih =>
    intro b B hA hb
    simp only [List.cons_append, List.takeWhile_cons, hA a (by simp)]
    simp [ih b B (fun c hc => hA c (by simp [hc])) hb]

lemma matchHashAt_marker (run tail : List Char) (hne : run ≠ [])
    (hw : ∀ c ∈ run, isWordChar c = true) :
    matchHashAt (hashMarker ++ (run ++ (hashClose ++ tail))) = some run := by
  have h1 : startsWithL (hashMarker ++ (run ++ (hashClose ++ tail))) hashMarker = true :=
    startsWithL_append _ _
  have hdrop : (hashMarker ++ (run ++ (hashClose ++ tail))).drop hashMarker.length
      = run ++ (hashClose ++ tail) := List.drop_left _ _
  have hclose : hashClose ++ tail = ' ' :: ("-->".toList ++ tail) := by
    rw [show hashClose = ' ' :: "-->".toList from by decide]
    rfl
  have htw : (run ++ (hashClose ++ tail)).takeWhile isWordChar = run := by
    rw [hclose]
    exact takeWhile_append_stop isWordChar run ' ' _ hw (by decide)
  have hdrop2 : (run ++ (hashClose ++ tail)).drop run.length = hashClose ++ tail :=
    List.drop_left _ _
  rw [matchHashAt, if_pos h1, hdrop, htw, if_neg hne, hdrop2,
    if_pos (startsWithL_append _ _)]

lemma extractHashL_marker (run tail : List Char) (hne : run ≠ [])
    (hw : ∀ c ∈ run, isWordChar c = true) :
    extractHashL (hashMarker ++ (run ++ (hashClose ++ tail))) = some (String.mk run) := by
  have hm : hashMarker ++ (run ++ (hashClose ++ tail))
      = '<' :: ("!-- hash: ".toList ++ (run ++ (hashClose ++ tail))) := by
    rw [show hashMarker = '<' :: "!-- hash: ".toList from by decide]
    rfl
  rw [hm, extractHashL, ← hm, matchHashAt_marker run tail hne hw]

/-! ## Helper lemmas: key rotation -/

lemma kmAfter_keys (keys : List String) (n : Nat) : (kmAfter keys n).keys = keys := by
  induction n with
  | zero => rfl
  | succ n ih => simp [kmAfter, KeyManager.getNextKey, ih]

lemma kmAfter_index (keys : List String) (n : Nat) :
    (kmAfter keys n).index = n % keys.length := by
  induction n with
  | zero => simp [kmAfter]
  | succ n ih =>
    simp only [kmAfter, KeyManager.getNextKey, kmAfter_keys, ih]
    exact Nat.mod_add_mod n keys.length 1

lemma nthKey_eq (keys : List String) (n : Nat) :
    nthKey keys n = keys.getD (n % keys.length) "" := by
  rw [nthKey, KeyManager.getNextKey, kmAfter_keys, kmAfter_index keys]

lemma apiIndexAfter_eq (s : String) (hs : parseKeys s ≠ []) (n : Nat) :
    apiIndexAfter s n = n := by
  have hlen : (parseKeys s).length ≠ 0 := by
    simpa using fun h => hs (List.length_eq_zero.mp h)
  induction n with
  | zero => rfl
  | succ n ih => simp [apiIndexAfter, getNextApiKey, hlen, ih]

lemma nthApiKey_eq (s : String) (hs : parseKeys s ≠ []) (n : Nat) :
    nthApiKey s n = (parseKeys s).getD (n % (parseKeys s).length) "" := by
  have hlen : (parseKeys s).length ≠ 0 := by
    simpa using fun h => hs (List.length_eq_zero.mp h)
  rw [nthApiKey, apiIndexAfter_eq s hs, getNextApiKey, if_neg hlen]

lemma nthKey_window_eq (keys : List String) (hk : keys ≠ []) (n : Nat) :
    (List.range keys.length).map (fun j => nthKey keys (n + j))
      = keys.drop (n % keys.length) ++ keys.take (n % keys.length) := by
  have hlen : 0 < keys.length := List.length_pos.mpr hk
  have hm : n % keys.length < keys.length := Nat.mod_lt _ hlen
  apply List.ext_getElem
  · simp [List.length_drop, List.length_take]
    omega
  · intro i h1 h2
    have hiL : i < keys.length := by simpa using h1
    rw [List.getElem_map, List.getElem_range, nthKey_eq keys]
    have hmod : (n + i) % keys.length = (n % keys.length + i) % keys.length := by
      rw [Nat.add_mod, Nat.mod_eq_of_lt hiL]
    by_cases hcase : i < keys.length - n % keys.length
    · have hlt : n % keys.length + i < keys.length := by omega
      rw [hmod, Nat.mod_eq_of_lt hlt]
      rw [List.getElem_append_left
        (show i < (keys.drop (n % keys.length)).length by simp [List.length_drop]; omega)]
      rw [List.getElem_drop]
      exact List.getD_eq_getElem keys "" (by omega)
    · have hge : keys.length ≤ n % keys.length + i := by omega
      have hlt2 : n % keys.length + i - keys.length < keys.length := by omega
      rw [hmod, Nat.mod_eq_sub_mod hge, Nat.mod_eq_of_lt hlt2]
      rw [List.getElem_append_right
        (show (keys.drop (n % keys.length)).length ≤ i by simp [List.length_drop]; omega)]
      rw [List.getElem_take]
      have hidx : i - (keys.drop (n % keys.length)).length
          = n % keys.length + i - keys.length := by
        simp [List.length_drop]
        omega
      rw [← hidx]
      exact List.getD_eq_getElem keys "" (by rw [hidx]; omega)

lemma nthKey_window_perm (keys : List String) (hk : keys ≠ []) (n : Nat) :
    ((List.range keys.length).map (fun j => nthKey keys (n + j))).Perm keys := by
  rw [nthKey_window_eq keys hk n]
  have h1 : (keys.drop (n % keys.length) ++ keys.take (n % keys.length)).Perm
      (keys.take (n % keys.length) ++ keys.drop (n % keys.length)) := List.perm_append_comm
  rw [List.take_append_drop] at h1
  exact h1

/-! ## Helper lemmas: the retry loop of translateText -/

lemma translateTextGo_attempts_le (oracle : Nat → FetchResult) (fuel : Nat) :
    ∀ (i : Nat) (km : KeyManager), (translateTextGo oracle i fuel km).attempts ≤ fuel := by
  induction fuel with
  | zero => intro i km; simp [translateTextGo]
  | succ fuel ih =>
    intro i km
    cases h : attemptValue (oracle i) with
    | some d => simp [translateTextGo, h]
    | none =>
      simp only [translateTextGo, h]
      exact Nat.succ_le_succ (ih (i + 1) _)

lemma translateTextGo_keys (oracle : Nat → FetchResult) (fuel : Nat) :
    ∀ (i : Nat) (km : KeyManager), (translateTextGo oracle i fuel km).km.keys = km.keys := by
  induction fuel with
  | zero => intro i km; rfl
  | succ fuel ih =>
    intro i km
    cases h : attemptValue (oracle i) with
    | some d => simp [translateTextGo, h, KeyManager.getNextKey]
    | none =>
      simp only [translateTextGo, h]
      rw [ih (i + 1)]
      rfl

lemma translateTextGo_index (oracle : Nat → FetchResult) (fuel : Nat) :
    ∀ (i : Nat) (km : KeyManager), km.keys ≠ [] → km.index < km.keys.length →
    (translateTextGo oracle i fuel km).km.index
      = (km.index + (translateTextGo oracle i fuel km).attempts) % km.keys.length := by
  induction fuel with
  | zero =>
    intro i km hk hidx
    simp [translateTextGo, Nat.mod_eq_of_lt hidx]
  | succ fuel ih =>
    intro i km hk hidx
    have hlen : 0 < km.keys.length := List.length_pos.mpr hk
    cases h : attemptValue (oracle i) with
    | some d => simp [translateTextGo, h, KeyManager.getNextKey]
    | none =>
      simp only [translateTextGo, h]
      have hkm1 : ((km.getNextKey).2).keys = km.keys := rfl
      have hkm1i : ((km.getNextKey).2).index = (km.index + 1) % km.keys.length := rfl
      rw [ih (i + 1) (km.getNextKey).2 (by rw [hkm1]; exact hk)
        (by rw [hkm1, hkm1i]; exact Nat.mod_lt _ hlen)]
      rw [hkm1, hkm1i, Nat.mod_add_mod]
      congr 1
      omega

lemma translateTextGo_all_fail (oracle : Nat → FetchResult) (fuel : Nat) :
    ∀ (i : Nat) (km : KeyManager),
    (∀ j, j < fuel → attemptValue (oracle (i + j)) = none) →
    (translateTextGo oracle i fuel km).result = none ∧
      (translateTextGo oracle i fuel km).attempts = fuel := by
  induction fuel with
  | zero => intro i km _; simp [translateTextGo]
  | succ fuel ih =>
    intro i km hfail
    have h0 : attemptValue (oracle i) = none := by simpa using hfail 0 (by omega)
    simp only [translateTextGo, h0]
    have hrec := ih (i + 1) (km.getNextKey).2 (fun j hj => by
      have := hfail (j + 1) (by omega)
      rwa [show i + (j + 1) = (i + 1) + j from by omega] at this)
    exact ⟨hrec.1, by rw [hrec.2]⟩

/-! ## Helper lemmas: the batch loop -/

lemma processOne_index (tr : Nat → String → Option String) (i : Nat) (t : String) :
    (processOne tr i t).index = i := by
  rw [processOne]
  split <;> rfl

lemma mapWithIndex_procList (tr : Nat → String → Option String) (j : Nat) :
    ∀ (l : List String) (i : Nat),
      mapWithIndex (fun idx text => processOne tr (j + idx) text) l i = procList tr l (j + i) := by
  intro l
  induction l with
  | nil => intro i; rfl
  | cons t ts ih =>
    intro i
    simp only [mapWithIndex, procList, ih (i + 1)]
    rfl

lemma procList_append (tr : Nat → String → Option String) :
    ∀ (l₁ l₂ : List String) (i : Nat),
      procList tr (l₁ ++ l₂) i = procList tr l₁ i ++ procList tr l₂ (i + l₁.length) := by
  intro l₁
  induction l₁ with
  | nil => intro l₂ i; simp [procList]
  | cons t ts ih =>
    intro l₂ i
    simp only [List.cons_append, procList, List.append_eq, ih l₂ (i + 1), List.length_cons]
    rw [show i + 1 + ts.length = i + (ts.length + 1) from by omega]

lemma translateBatchGo_eq (tr : Nat → String → Option String) :
    ∀ (l : List String) (i : Nat), translateBatchGo tr l i = procList tr l i
  | [], i => by simp [translateBatchGo, procList]
  | t :: ts, i => by
    rw [translateBatchGo]
    rw [mapWithIndex_procList tr i ((t :: ts).take CONCURRENCY) 0, Nat.add_zero]
    rw [translateBatchGo_eq tr ((t :: ts).drop CONCURRENCY) (i + CONCURRENCY)]
    by_cases h : CONCURRENCY ≤ (t :: ts).length
    · conv_rhs => rw [← List.take_append_drop CONCURRENCY (t :: ts)]
      rw [procList_append]
      rw [List.length_take, Nat.min_eq_left h]
    · have hd : (t :: ts).drop CONCURRENCY = [] := List.drop_eq_nil_of_le (by omega)
      have ht : (t :: ts).take CONCURRENCY = t :: ts := List.take_of_length_le (by omega)
      rw [hd, ht]
      simp [procList]
termination_by l _ => l.length
decreasing_by simp [CONCURRENCY, List.length_drop]; omega

lemma sortByIndex_sorted : ∀ l : List IndexedResult,
    List.Chain' (fun a b => a.index < b.index) l → sortByIndex l = l := by
  intro l
  induction l with
  | nil => intro _; rfl
  | cons x xs ih =>
    intro hch
    rw [sortByIndex, ih hch.tail]
    cases xs with
    | nil => rfl
    | cons y ys =>
      have hxy : x.index < y.index := (List.chain'_cons.mp hch).1
      simp [insertByIndex, Nat.le_of_lt hxy]

lemma procList_chain (tr : Nat → String → Option String) :
    ∀ (l : List String) (i : Nat),
      List.Chain' (fun a b : IndexedResult => a.index < b.index) (procList tr l i) := by
  intro l
  induction l with
  | nil => intro i; simp [procList]
  | cons t ts ih =>
    intro i
    cases ts with
    | nil => simp [procList]
    | cons u us =>
      rw [procList, procList, List.chain'_cons]
      constructor
      · rw [processOne_index, processOne_index]
        omega
      · rw [← procList]
        exact ih (i + 1)

lemma translateBatch_eq (tr : Nat → String → Option String) (texts : List String) :
    translateBatch tr texts = (procList tr texts 0).map (fun r => r.result) := by
  rw [translateBatch, translateBatchGo_eq, sortByIndex_sorted _ (procList_chain tr texts 0)]

lemma procList_length (tr : Nat → String → Option String) :
    ∀ (l : List String) (i : Nat), (procList tr l i).length = l.length := by
  intro l
  induction l with
  | nil => intro i; rfl
  | cons t ts ih => intro i; simp [procList, ih (i + 1)]

lemma procList_getD (tr : Nat → String → Option String) :
    ∀ (l : List String) (i j : Nat), j < l.length →
      (procList tr l i).getD j ⟨0, ""⟩ = processOne tr (i + j) (l.getD j "") := by
  intro l
  induction l with
  | nil => intro i j h; simp at h
  | cons t ts ih =>
    intro i j hj
    cases j with
    | zero => simp [procList]
    | succ j =>
      rw [procList, List.getD_cons_succ, List.getD_cons_succ]
      rw [ih (i + 1) j (by simpa using hj)]
      rw [show i + 1 + j = i + (j + 1) from by omega]

lemma translateBatch_length (tr : Nat → String → Option String) (texts : List String) :
    (translateBatch tr texts).length = texts.length := by
  rw [translateBatch_eq]
  simp [procList_length]

lemma translateBatch_getD (tr : Nat → String → Option String) (texts : List String)
    (j : Nat) (hj : j < texts.length) :
    (translateBatch tr texts).getD j "" = (processOne tr j (texts.getD j "")).result := by
  rw [translateBatch_eq]
  have h1 : j < (procList tr texts 0).length := by rw [procList_length]; exact hj
  have h2 : j < ((procList tr texts 0).map (fun r => r.result)).length := by simpa
  rw [List.getD_eq_getElem _ _ h2, List.getElem_map,
    ← List.getD_eq_getElem (procList tr texts 0) ⟨0, ""⟩ h1,
    procList_getD tr texts 0 j hj]
  rw [Nat.zero_add]

lemma batches_flatten : ∀ l : List String, (batches l).flatten = l
  | [] => by simp [batches]
  | t :: ts => by
    rw [batches, List.flatten_cons, batches_flatten ((t :: ts).drop CONCURRENCY)]
    exact List.take_append_drop _ _
termination_by l => l.length
decreasing_by simp [CONCURRENCY, List.length_drop]; omega

lemma batches_le : ∀ (l : List String), ∀ b ∈ batches l, b.length ≤ CONCURRENCY
  | [] => by simp [batches]
  | t :: ts => by
    intro b hb
    rw [batches] at hb
    rcases List.mem_cons.mp hb with h | h
    · subst h
      exact List.length_take_le _ _
    · exact batches_le ((t :: ts).drop CONCURRENCY) b h
termination_by l => l.length
decreasing_by simp [CONCURRENCY, List.length_drop]; omega

/-! ## Helper lemmas: the script directory run -/

lemma lookup_dirStep_foldl_ne (tr : String → String → Option String) (out : String) :
    ∀ (l : List (String × String)) (fs : List (String × String)),
      (∀ f ∈ l, getOutputFileName f.1 ≠ out) →
      List.lookup out (l.foldl (dirStep tr) fs) = List.lookup out fs := by
  intro l
  induction l with
  | nil => intro fs _; rfl
  | cons f l ih =>
    intro fs h
    rw [List.foldl_cons, ih _ (fun g hg => h g (by simp [hg]))]
    cases htr : tr f.1 f.2 with
    | none => simp [dirStep, htr]
    | some o =>
      have hne : (out == getOutputFileName f.1) = false :=
        beq_eq_false_iff_ne.mpr (fun he => h f (by simp) he.symm)
      simp [dirStep, htr, fsWrite, List.lookup_cons, hne]

lemma lookup_dirStep_foldl_write (tr : String → String → Option String)
    (f : String × String) (o : String) (l₁ l₂ : List (String × String))
    (fs : List (String × String)) (htr : tr f.1 f.2 = some o)
    (h2 : ∀ g ∈ l₂, getOutputFileName g.1 ≠ getOutputFileName f.1) :
    List.lookup (getOutputFileName f.1) ((l₁ ++ f :: l₂).foldl (dirStep tr) fs) = some o := by
  rw [List.foldl_append, List.foldl_cons]
  rw [lookup_dirStep_foldl_ne tr _ l₂ _ h2]
  simp [dirStep, htr, fsWrite, List.lookup_cons]

/-! ## Helper lemmas: the integration cache -/

lemma intStep_cache_persist (produce : String → Option String) (s : IntState)
    (f : String × String) (h t : String) (hc : List.lookup h s.cache = some t) :
    List.lookup h (intStep produce s f).cache = some t := by
  rw [intStep]
  cases hcc : List.lookup (hashContent f.2) s.cache with
  | some c => simpa using hc
  | none =>
    by_cases hss : shouldSkip f.2 (List.lookup f.1 s.fs) = true
    · simp [hss, hc]
    · cases hp : produce f.2 with
      | none => simp [hss, hp, hc]
      | some o =>
        have hne : (h == hashContent f.2) = false := by
          refine beq_eq_false_iff_ne.mpr fun he => ?_
          rw [he, hcc] at hc
          cases hc
        simp [hss, hp, List.lookup_cons, hne, hc]

lemma foldl_intStep_cache_persist (produce : String → Option String) (h t : String) :
    ∀ (l : List (String × String)) (s : IntState), List.lookup h s.cache = some t →
      List.lookup h (l.foldl (intStep produce) s).cache = some t := by
  intro l
  induction l with
  | nil => intro s hc; exact hc
  | cons f l ih =>
    intro s hc
    rw [List.foldl_cons]
    exact ih _ (intStep_cache_persist produce s f h t hc)

/-! ## Claim theorems -/

/-- C2: for every non-empty list of API keys the key manager rotates in
strict round-robin order: the `n`-th call (counting from 0) of
`KeyManager.getNextKey` and of `getNextApiKey` returns `keys[n % length]`,
and over any `length`-many consecutive calls every key is returned exactly
once (the window of returned keys is a permutation of the key list). -/
theorem key_rotation_round_robin (keys : List String) (apiKeyStr : String) (n : Nat)
    (hk : keys ≠ []) (hs : parseKeys apiKeyStr ≠ []) :
    nthKey keys n = keys.getD (n % keys.length) "" ∧
    nthApiKey apiKeyStr n
      = (parseKeys apiKeyStr).getD (n % (parseKeys apiKeyStr).length) "" ∧
    ((List.range keys.length).map (fun j => nthKey keys (n + j))).Perm keys :=
  ⟨nthKey_eq keys n, nthApiKey_eq apiKeyStr hs n, nthKey_window_perm keys hk n⟩

/-- Witness for C2 at `keys = [k1, k2, k3]`, `apiKeyStr = "a, b"`, `n = 7`. -/
theorem key_rotation_round_robin_witness :
    nthKey ["k1", "k2", "k3"] 7 = "k2" ∧
    nthApiKey "a, b" 7 = "b" ∧
    ((List.range 3).map (fun j => nthKey ["k1", "k2", "k3"] (7 + j))).Perm
      ["k1", "k2", "k3"] := by
  have h := key_rotation_round_robin ["k1", "k2", "k3"] "a, b" 7 (by decide) (by decide)
  refine ⟨?_, ?_, h.2.2⟩
  · rw [h.1]
    decide
  · rw [h.2.1]
    decide

/-- C3: `translateText` makes at most `retries` attempts (the source
default is 3), advancing the key rotation by exactly one key per attempt;
an attempt fails when the response is not ok, the payload code is not 200,
or the fetch throws (each failure sleeps 500 ms, not modelled, and moves
on); when every attempt fails on non-blank input the function returns
`null` after exactly `retries` attempts.  The embedding is a total
function: no exception propagates. -/
theorem translateText_bounded_retry (text : String) (km : KeyManager)
    (oracle : Nat → FetchResult) (retries : Nat) (hk : km.keys ≠ [])
    (hidx : km.index < km.keys.length) :
    (translateText text km oracle retries).attempts ≤ retries ∧
    (translateText text km oracle retries).km.keys = km.keys ∧
    (translateText text km oracle retries).km.index
      = (km.index + (translateText text km oracle retries).attempts) % km.keys.length ∧
    (trimL text.toList ≠ [] → (∀ j, j < retries → attemptValue (oracle j) = none) →
      (translateText text km oracle retries).result = none ∧
      (translateText text km oracle retries).attempts = retries) := by
  by_cases ht : trimL text.toList = []
  · rw [translateText, if_pos ht]
    refine ⟨Nat.zero_le _, rfl, ?_, ?_⟩
    · simp [Nat.mod_eq_of_lt hidx]
    · intro hcon
      exact absurd ht hcon
  · rw [translateText, if_neg ht]
    refine ⟨translateTextGo_attempts_le oracle retries 0 km,
      translateTextGo_keys oracle retries 0 km,
      translateTextGo_index oracle retries 0 km hk hidx, ?_⟩
    intro _ hfail
    exact translateTextGo_all_fail oracle retries 0 km (fun j hj => by simpa using hfail j hj)

/-- Witness for C3: with two keys and an oracle that always throws, three
attempts are made, the result is `null` and the rotation advanced three
times. -/
theorem translateText_bounded_retry_witness :
    (translateText "hi" ⟨["k1", "k2"], 0⟩ (fun _ => FetchResult.thrown) 3).result = none ∧
    (translateText "hi" ⟨["k1", "k2"], 0⟩ (fun _ => FetchResult.thrown) 3).attempts = 3 ∧
    (translateText "hi" ⟨["k1", "k2"], 0⟩ (fun _ => FetchResult.thrown) 3).km.index = 1 := by
  have h := translateText_bounded_retry "hi" ⟨["k1", "k2"], 0⟩ (fun _ => FetchResult.thrown) 3
    (by decide) (by decide)
  have h4 := h.2.2.2 (by decide) (fun j hj => rfl)
  refine ⟨h4.1, h4.2, ?_⟩
  rw [h.2.2.1, h4.2]
  decide

/-- C4: `translateBatch` slices the input into consecutive batches of at
most `CONCURRENCY = 5` texts (sleeping `DELAY_MS` between batches, a
timing effect that is not modelled), and returns exactly one result per
input text in the original input order: the `j`-th output is the batch
callback applied to the `j`-th input. -/
theorem translateBatch_batched_in_order (tr : Nat → String → Option String)
    (texts : List String) (j : Nat) (hj : j < texts.length) :
    (translateBatch tr texts).length = texts.length ∧
    (∀ b ∈ batches texts, b.length ≤ CONCURRENCY) ∧
    (batches texts).flatten = texts ∧
    (translateBatch tr texts).getD j "" = (processOne tr j (texts.getD j "")).result :=
  ⟨translateBatch_length tr texts, batches_le texts, batches_flatten texts,
    translateBatch_getD tr texts j hj⟩

/-- Witness for C4 on a three-element input. -/
theorem translateBatch_batched_in_order_witness :
    (translateBatch (fun _ _ => none) ["hi", "", "there"]).length = 3 ∧
    (translateBatch (fun _ _ => none) ["hi", "", "there"]).getD 0 "" = "hi" := by
  have h := translateBatch_batched_in_order (fun _ _ => none) ["hi", "", "there"] 0 (by decide)
  refine ⟨h.1, ?_⟩
  rw [h.2.2.2]
  decide

/-- C9: a paragraph that is blank or begins with a code fence, four spaces
or `<` is emitted unchanged at its original position and independently of
the translation oracle (no API call); a paragraph whose translation
returns `null` is emitted unchanged at its original position; and
`translateText` returns empty or whitespace-only input unchanged with zero
attempts and an untouched key manager (no API contact). -/
theorem paragraph_passthrough (tr : Nat → String → Option String) (texts : List String)
    (j : Nat) (t : String) (km : KeyManager) (oracle : Nat → FetchResult) (retries : Nat)
    (hj : j < texts.length) :
    (skipPara (texts.getD j "") = true →
      (translateBatch tr texts).getD j "" = texts.getD j "" ∧
      ∀ tr₂ : Nat → String → Option String,
        (translateBatch tr₂ texts).getD j "" = (translateBatch tr texts).getD j "") ∧
    (tr j (texts.getD j "") = none →
      (translateBatch tr texts).getD j "" = texts.getD j "") ∧
    (trimL t.toList = [] → translateText t km oracle retries = ⟨some t, km, 0⟩) := by
  refine ⟨?_, ?_, ?_⟩
  · intro hskip
    have hone : ∀ tr₃ : Nat → String → Option String,
        (translateBatch tr₃ texts).getD j "" = texts.getD j "" := by
      intro tr₃
      rw [translateBatch_getD tr₃ texts j hj, processOne, if_pos hskip]
    exact ⟨hone tr, fun tr₂ => by rw [hone tr₂, hone tr]⟩
  · intro hnull
    rw [translateBatch_getD tr texts j hj, processOne]
    split
    · rfl
    · rw [hnull]
      rfl
  · intro hblank
    rw [translateText, if_pos hblank]

/-- Witness for C9: a raw-HTML paragraph passes through unchanged under
any oracle, and blank input short-circuits `translateText`. -/
theorem paragraph_passthrough_witness :
    (translateBatch (fun _ _ => some "T") ["<div>"]).getD 0 "" = "<div>" ∧
    translateText " " ⟨["k"], 0⟩ (fun _ => FetchResult.thrown) 3
      = ⟨some " ", ⟨["k"], 0⟩, 0⟩ := by
  have h := paragraph_passthrough (fun _ _ => some "T") ["<div>"] 0 " " ⟨["k"], 0⟩
    (fun _ => FetchResult.thrown) 3 (by decide)
  exact ⟨(h.1 (by decide)).1, h.2.2 (by decide)⟩

/-- C10: `translateFrontmatter` maps every key other than `title` and
`description` to exactly its input value; `title` and `description` keep
their original values whenever the translated argument is falsy, and only
a truthy translated value replaces the original. -/
theorem translateFrontmatter_frame (frontmatter : String → JsVal)
    (translatedTitle translatedDescription : JsVal) (k : String) :
    (k ≠ "title" → k ≠ "description" →
      translateFrontmatter frontmatter translatedTitle translatedDescription k
        = frontmatter k) ∧
    (truthy translatedTitle = false →
      translateFrontmatter frontmatter translatedTitle translatedDescription "title"
        = frontmatter "title") ∧
    (truthy translatedDescription = false →
      translateFrontmatter frontmatter translatedTitle translatedDescription "description"
        = frontmatter "description") ∧
    (truthy translatedTitle = true →
      translateFrontmatter frontmatter translatedTitle translatedDescription "title"
        = translatedTitle) := by
  refine ⟨fun h1 h2 => ?_, fun h => ?_, fun h => ?_, fun h => ?_⟩ <;>
    simp [translateFrontmatter, jsOr, *]

/-- Witness for C10 at a record with an opaque `tags` value and a falsy
translated title. -/
theorem translateFrontmatter_frame_witness :
    translateFrontmatter (fun k => if k = "tags" then JsVal.other 7 else JsVal.str k)
      JsVal.undef (JsVal.str "D") "tags" = JsVal.other 7 := by
  have h := translateFrontmatter_frame
    (fun k => if k = "tags" then JsVal.other 7 else JsVal.str k)
    JsVal.undef (JsVal.str "D") "tags"
  rw [h.1 (by decide) (by decide)]
  decide

/-- C7: the `POST /api/translate` handler is a total function (its outer
`try`/`catch` turns every exception into the 500 response, so it never
throws); a request body without a `text` field yields status 400 with
error `No text provided`; a non-ok upstream response yields the upstream
status as an error; an upstream payload code other than 200, a body-parse
failure, or any thrown exception yields status 500; and it returns status
200 with `{ translatedText }` exactly when the upstream call succeeds with
code 200. -/
theorem post_handler_spec (req : ReqBody) (upstream : UpstreamResult)
    (t lang statusText : String) (st : Nat) (code : Int) (message : Option String)
    (data : String) :
    POST ReqBody.parseFails upstream = ⟨500, RespBody.err "Internal server error"⟩ ∧
    POST (ReqBody.parsed none (some lang)) upstream
      = ⟨400, RespBody.err "No text provided"⟩ ∧
    (t ≠ "" → POST (ReqBody.parsed (some t) (some lang)) (UpstreamResult.notOk st statusText)
      = ⟨st, RespBody.err ("DeepLX failed: " ++ statusText)⟩) ∧
    (t ≠ "" → POST (ReqBody.parsed (some t) (some lang)) UpstreamResult.fetchThrows
      = ⟨500, RespBody.err "Internal server error"⟩) ∧
    (t ≠ "" → POST (ReqBody.parsed (some t) (some lang)) UpstreamResult.jsonThrows
      = ⟨500, RespBody.err "Internal server error"⟩) ∧
    (t ≠ "" → code ≠ 200 →
      POST (ReqBody.parsed (some t) (some lang)) (UpstreamResult.jsonOk code message data)
        = ⟨500, RespBody.err (jsOrStr message "Translation failed")⟩) ∧
    (t ≠ "" → POST (ReqBody.parsed (some t) (some lang)) (UpstreamResult.jsonOk 200 message data)
      = ⟨200, RespBody.ok data⟩) ∧
    (((POST req upstream).status = 200 ∧ ∃ d, (POST req upstream).body = RespBody.ok d) ↔
      ∃ t₂ lang₂ msg₂ d₂, t₂ ≠ "" ∧ req = ReqBody.parsed (some t₂) lang₂ ∧
        upstream = UpstreamResult.jsonOk 200 msg₂ d₂) := by
  refine ⟨rfl, by simp [POST], fun ht => by simp [POST, ht], fun ht => by simp [POST, ht],
    fun ht => by simp [POST, ht], fun ht hc => by simp [POST, ht, hc],
    fun ht => by simp [POST, ht], ?_⟩
  cases req with
  | parseFails => simp [POST]
  | parsed text lang₀ =>
    by_cases htext : text = none ∨ text = some ""
    · rcases htext with h | h
      · subst h
        simp [POST]
      · subst h
        simp [POST]
        exact fun x hx h' => absurd h'.symm hx
    · obtain ⟨t₀, ht0, ht0ne⟩ : ∃ t₀, text = some t₀ ∧ t₀ ≠ "" := by
        cases text with
        | none => exact absurd (Or.inl rfl) htext
        | some s =>
          refine ⟨s, rfl, fun hs => ?_⟩
          exact htext (Or.inr (by rw [hs]))
      subst ht0
      cases upstream with
      | fetchThrows => simp [POST, ht0ne]
      | notOk st₀ stx₀ => simp [POST, ht0ne]
      | jsonThrows => simp [POST, ht0ne]
      | jsonOk code₀ msg₀ d₀ =>
        by_cases hc : code₀ = 200
        · subst hc
          simp [POST, ht0ne]
        · simp [POST, ht0ne, hc]

/-- Witness for C7: a successful proxy call. -/
theorem post_handler_spec_witness :
    POST (ReqBody.parsed (some "你好") (some "EN")) (UpstreamResult.jsonOk 200 none "hello")
      = ⟨200, RespBody.ok "hello"⟩ := by
  have h := post_handler_spec (ReqBody.parsed (some "你好") (some "EN"))
    (UpstreamResult.jsonOk 200 none "hello") "你好" "EN" "" 0 0 none "hello"
  exact h.2.2.2.2.2.2.1 (by decide)

/-- C8: `hashContent` always returns a non-empty base-36 numeral (digits
`0`-`9` and `a`-`z`, hence word characters matched by the regex), and it
is a function of the content alone; embedding `<!-- hash: h -->` in a
written output whose part before the comment contains no occurrence of the
opening literal lets `/<!-- hash: (\w+) -->/` recover exactly `h`, so the
skip check of a run immediately following a successful translation of
unchanged source succeeds. -/
theorem hash_roundtrip_skip (content : String) (pre tail : List Char)
    (hpre : hasMarker pre = false) :
    hashContent content ≠ "" ∧
    (∀ c ∈ (hashContent content).toList, isBase36Char c = true) ∧
    extractHashL
        (pre ++ (hashMarker ++ ((hashContent content).toList ++ (hashClose ++ tail))))
      = some (hashContent content) ∧
    shouldSkip content
      (some (String.mk
        (pre ++ (hashMarker ++ ((hashContent content).toList ++ (hashClose ++ tail))))))
      = true := by
  have hne : (hashContent content).toList ≠ [] := toBase36_toList_ne_nil _
  have hex : extractHashL
      (pre ++ (hashMarker ++ ((hashContent content).toList ++ (hashClose ++ tail))))
      = some (hashContent content) := by
    rw [extractHashL_skip_head pre _ hpre (startsWithL_append _ _)]
    exact extractHashL_marker (hashContent content).toList tail hne (hashContent_word content)
  refine ⟨hashContent_ne_empty content, hashContent_base36 content, hex, ?_⟩
  show (extractHash (String.mk
      (pre ++ (hashMarker ++ ((hashContent content).toList ++ (hashClose ++ tail)))))
    == some (hashContent content)) = true
  rw [show extractHash (String.mk
      (pre ++ (hashMarker ++ ((hashContent content).toList ++ (hashClose ++ tail)))))
    = extractHashL
      (pre ++ (hashMarker ++ ((hashContent content).toList ++ (hashClose ++ tail))))
    from rfl]
  rw [hex]
  simp

/-- Witness for C8 with a frontmatter-like prefix and a body tail. -/
theorem hash_roundtrip_skip_witness :
    hashContent "a" ≠ "" ∧
    (∀ c ∈ (hashContent "a").toList, isBase36Char c = true) ∧
    extractHashL ("---\ntitle: x\n---\n".toList
        ++ (hashMarker ++ ((hashContent "a").toList ++ (hashClose ++ "\nbody".toList))))
      = some (hashContent "a") ∧
    shouldSkip "a"
      (some (String.mk ("---\ntitle: x\n---\n".toList
        ++ (hashMarker ++ ((hashContent "a").toList ++ (hashClose ++ "\nbody".toList))))))
      = true :=
  hash_roundtrip_skip "a" "---\ntitle: x\n---\n".toList "\nbody".toList (by decide)

/-- C1 counterexample: `FILE_NAME_MAP` sends the source file `梦.md` to the
output name `dream.md`.  With sources `梦.md` (content changed, hash
`1t`) and `dream.md` (content `B`, whose output embeds its current hash
`1u`), the file `dream.md` is skipped by the hash check — no translation
is attempted for it — and yet its output file does not stay unchanged: the
translation of `梦.md` is written over it. -/
theorem translateDirectory_skip_overwrite_counterexample :
    shouldSkip "B" (List.lookup (getOutputFileName "dream.md")
      [("dream.md", "<!-- hash: 1u -->")]) = true ∧
    "dream.md" ∉ (Mjs.translateDirectory (fun _ _ => some "X")
      [("梦.md", "A"), ("dream.md", "B")] [("dream.md", "<!-- hash: 1u -->")]).attempted ∧
    List.lookup (getOutputFileName "dream.md")
        (Mjs.translateDirectory (fun _ _ => some "X")
          [("梦.md", "A"), ("dream.md", "B")] [("dream.md", "<!-- hash: 1u -->")]).fs
      ≠ List.lookup (getOutputFileName "dream.md") [("dream.md", "<!-- hash: 1u -->")] :=
  ⟨by decide, by decide, by decide⟩

/-- C1 (amended): provided no two markdown source files map to the same
output file name, a file whose existing output embeds the hash of its
current content is skipped — its translation is never attempted and its
output file is left unchanged — and otherwise its translation is attempted
and, when the processing oracle succeeds, the produced output is written
under its mapped name. -/
theorem translateDirectory_hash_skip (tr : String → String → Option String)
    (files fs0 : List (String × String)) (name content : String)
    (hmem : (name, content) ∈ files) (hmd : isMarkdownFile name = true)
    (hnodup : ((files.filter (fun f => isMarkdownFile f.1)).map
      (fun f => getOutputFileName f.1)).Nodup) :
    (shouldSkip content (List.lookup (getOutputFileName name) fs0) = true →
      name ∉ (Mjs.translateDirectory tr files fs0).attempted ∧
      List.lookup (getOutputFileName name) (Mjs.translateDirectory tr files fs0).fs
        = List.lookup (getOutputFileName name) fs0) ∧
    (shouldSkip content (List.lookup (getOutputFileName name) fs0) = false →
      name ∈ (Mjs.translateDirectory tr files fs0).attempted ∧
      ∀ o, tr name content = some o →
        List.lookup (getOutputFileName name) (Mjs.translateDirectory tr files fs0).fs
          = some o) := by
  have hmemM : (name, content) ∈ files.filter (fun f => isMarkdownFile f.1) :=
    List.mem_filter.mpr ⟨hmem, hmd⟩
  have hinj := List.inj_on_of_nodup_map hnodup
  constructor
  · intro hskip
    have hnotT : (name, content) ∉ (files.filter (fun f => isMarkdownFile f.1)).filter
        (fun f => ! shouldSkip f.2 (List.lookup (getOutputFileName f.1) fs0)) := by
      intro hT
      have := (List.mem_filter.mp hT).2
      simp [hskip] at this
    have hfor : ∀ g ∈ (files.filter (fun f => isMarkdownFile f.1)).filter
        (fun f => ! shouldSkip f.2 (List.lookup (getOutputFileName f.1) fs0)),
        getOutputFileName g.1 ≠ getOutputFileName name := by
      intro g hgT heq
      have hgM := List.mem_of_mem_filter hgT
      have := hinj hgM hmemM heq
      rw [this] at hgT
      exact hnotT hgT
    constructor
    · simp only [Mjs.translateDirectory]
      intro hin
      obtain ⟨g, hgT, hg1⟩ := List.mem_map.mp hin
      exact hfor g hgT (by rw [hg1])
    · simp only [Mjs.translateDirectory]
      exact lookup_dirStep_foldl_ne tr _ _ fs0 hfor
  · intro hskip
    have hT : (name, content) ∈ (files.filter (fun f => isMarkdownFile f.1)).filter
        (fun f => ! shouldSkip f.2 (List.lookup (getOutputFileName f.1) fs0)) :=
      List.mem_filter.mpr ⟨hmemM, by simp [hskip]⟩
    constructor
    · simp only [Mjs.translateDirectory]
      exact List.mem_map.mpr ⟨(name, content), hT, rfl⟩
    · intro o hto
      obtain ⟨l₁, l₂, hsplit⟩ := List.append_of_mem hT
      have hTn : (((files.filter (fun f => isMarkdownFile f.1)).filter
          (fun f => ! shouldSkip f.2 (List.lookup (getOutputFileName f.1) fs0))).map
          (fun f => getOutputFileName f.1)).Nodup :=
        List.Nodup.sublist
          (List.Sublist.map (fun f : String × String => getOutputFileName f.1)
            (List.filter_sublist _)) hnodup
      rw [hsplit] at hTn
      simp only [List.map_append, List.map_cons] at hTn
      have hno : getOutputFileName (name, content).1 ∉
          l₂.map (fun f => getOutputFileName f.1) :=
        (List.nodup_cons.mp (List.Nodup.of_append_right hTn)).1
      have h2 : ∀ g ∈ l₂, getOutputFileName g.1 ≠ getOutputFileName (name, content).1 := by
        intro g hg heq
        exact hno (List.mem_map.mpr ⟨g, hg, heq⟩)
      simp only [Mjs.translateDirectory]
      rw [hsplit]
      exact lookup_dirStep_foldl_write tr (name, content) o l₁ l₂ fs0 hto h2

/-- Witness for the amended C1: a single fresh file is attempted and its
translation is written. -/
theorem translateDirectory_hash_skip_witness :
    "a.md" ∈ (Mjs.translateDirectory (fun _ _ => some "OUT")
      [("a.md", "hello")] []).attempted ∧
    List.lookup (getOutputFileName "a.md")
      (Mjs.translateDirectory (fun _ _ => some "OUT") [("a.md", "hello")] []).fs
      = some "OUT" := by
  have h := translateDirectory_hash_skip (fun _ _ => some "OUT") [("a.md", "hello")] []
    "a.md" "hello" (by decide) (by decide) (by decide)
  have h2 := h.2 (by decide)
  exact ⟨h2.1, h2.2 "OUT" rfl⟩

/-- C5: a failure while processing one file does not abort the run.  In
`scripts/translate.mjs`, a file whose processing throws leaves the output
directory exactly as if the file had not been collected, and every other
file is still processed; in the integration, a file whose body translation
is unsuccessful only logs (modelled by the `apiCalls` trace) and changes
nothing else; and the build hook skips a content directory whose
processing throws and continues with the remaining directories. -/
theorem failure_does_not_abort_run (tr : String → String → Option String)
    (pre post : List (String × String)) (f : String × String)
    (fs0 : List (String × String)) (produce : String → Option String) (s : IntState)
    (dirResult : String → Except String (Nat × Nat)) (dpre dpost : List String)
    (d e : String) :
    (tr f.1 f.2 = none →
      (Mjs.translateDirectory tr (pre ++ f :: post) fs0).fs
        = (Mjs.translateDirectory tr (pre ++ post) fs0).fs) ∧
    (List.lookup (hashContent f.2) s.cache = none →
      shouldSkip f.2 (List.lookup f.1 s.fs) = false →
      produce f.2 = none →
      intStep produce s f = { s with apiCalls := f.1 :: s.apiCalls }) ∧
    (dirResult d = Except.error e →
      runHook dirResult (dpre ++ d :: dpost) = runHook dirResult (dpre ++ dpost)) := by
  refine ⟨?_, ?_, ?_⟩
  · intro htr
    simp only [Mjs.translateDirectory]
    rw [List.filter_filter, List.filter_filter]
    rw [List.filter_append, List.filter_append, List.filter_cons]
    by_cases hkeep : ((! shouldSkip f.2 (List.lookup (getOutputFileName f.1) fs0))
        && isMarkdownFile f.1) = true
    · rw [if_pos hkeep]
      rw [List.foldl_append, List.foldl_append, List.foldl_cons]
      simp [dirStep, htr]
    · rw [if_neg hkeep]
  · intro hm hd hp
    simp [intStep, hm, hd, hp]
  · intro herr
    simp only [runHook]
    rw [List.foldl_append, List.foldl_append, List.foldl_cons]
    simp [herr]

/-- Witness for C5: a throwing first file leaves the run equal to the run
without it, a failing integration step only appends to the log trace, and
an erroring directory drops out of the hook totals. -/
theorem failure_does_not_abort_run_witness :
    (Mjs.translateDirectory (fun _ _ => none)
        [("a.md", "x"), ("b.md", "y")] []).fs
      = (Mjs.translateDirectory (fun _ _ => none) [("b.md", "y")] []).fs ∧
    intStep (fun _ => none) ⟨[], [], 0, 0, []⟩ ("a.md", "x")
      = ⟨[], [], 0, 0, ["a.md"]⟩ ∧
    runHook (fun _ => Except.error "boom") ["posts"]
      = runHook (fun _ => Except.error "boom") [] := by
  have h := failure_does_not_abort_run (fun _ _ => none) [] [("b.md", "y")] ("a.md", "x")
    [] (fun _ => none) ⟨[], [], 0, 0, []⟩ (fun _ => Except.error "boom") [] [] "posts" "boom"
  exact ⟨h.1 rfl, h.2.1 (by decide) (by decide) rfl, h.2.2 rfl⟩

/-- C6: the integration keeps an in-memory map from content hash to the
complete translated file text: a successful translation stores
`hashContent(source) ↦ written output` in the map; a file whose hash is
already in the map is written directly from the map, with no call of the
translation API, no change to the map and a `skipped` increment; and map
entries persist through the rest of the directory walk, so any later file
with the same content hash hits the map. -/
theorem translation_cache_behavior (produce : String → Option String) (s : IntState)
    (f : String × String) (t : String) (files : List (String × String)) :
    (List.lookup (hashContent f.2) s.cache = some t →
      intStep produce s f
        = { s with fs := fsWrite s.fs f.1 t, skipped := s.skipped + 1 }) ∧
    (List.lookup (hashContent f.2) s.cache = none →
      shouldSkip f.2 (List.lookup f.1 s.fs) = false →
      produce f.2 = some t →
      List.lookup (hashContent f.2) (intStep produce s f).cache = some t ∧
      List.lookup f.1 (intStep produce s f).fs = some t) ∧
    (List.lookup (hashContent f.2) s.cache = some t →
      List.lookup (hashContent f.2) (runDir produce files s).cache = some t) := by
  refine ⟨?_, ?_, ?_⟩
  · intro hc
    simp [intStep, hc]
  · intro hm hd hp
    constructor
    · simp [intStep, hm, hd, hp, List.lookup_cons]
    · simp [intStep, hm, hd, hp, fsWrite, List.lookup_cons]
  · intro hc
    unfold runDir
    exact foldl_intStep_cache_persist produce _ t _ s hc

/-- Witness for C6: a successful translation stores the hash of the source
in the cache and writes the same text to the output. -/
theorem translation_cache_behavior_witness :
    List.lookup (hashContent "c")
      (intStep (fun _ => some "OUT") ⟨[], [], 0, 0, []⟩ ("x.md", "c")).cache = some "OUT" ∧
    List.lookup "x.md"
      (intStep (fun _ => some "OUT") ⟨[], [], 0, 0, []⟩ ("x.md", "c")).fs = some "OUT" := by
  have h := translation_cache_behavior (fun _ => some "OUT") ⟨[], [], 0, 0, []⟩
    ("x.md", "c") "OUT" []
  have h2 := h.2.1 (by decide) (by decide) rfl
  exact ⟨h2.1, h2.2⟩

end Blog
